import Mathlib

/-
  Verification development for the go-stardict library.

  The Go sources are shallowly embedded: Go byte strings become `List Nat`
  (each element a byte value), pure functions become Lean functions, and
  fallible Go code returns `Except`.  A Go runtime panic (index out of
  range, slice bounds) is modelled as a distinguished error constructor so
  that it is never confused with an error value returned by the Go code.
-/

namespace GoStardict

/-- Byte strings, as Go strings are byte sequences. -/
abbrev GoStr := List Nat

/-- Embedding of strings.HasPrefix from the Go standard library:
goHasPref s pre is true when s starts with the bytes of pre. -/
def goHasPref : GoStr → GoStr → Bool
  | _, [] => true
  | [], _ :: _ => false
  | c :: cs, p :: ps => c == p && goHasPref cs ps

/-- Embedding of strings.Compare from the Go standard library: bytewise
lexicographic comparison returning -1, 0 or 1. -/
def goCompare : GoStr → GoStr → Int
  | [], [] => 0
  | [], _ :: _ => -1
  | _ :: _, [] => 1
  | a :: as, b :: bs => if a < b then -1 else if b < a then 1 else goCompare as bs

/-- Embedding of prefixCmp from idx/idx.go: zero when b has prefix a,
otherwise strings.Compare. -/
def prefixCmp (a b : GoStr) : Int :=
  if goHasPref b a then 0 else goCompare a b

/-- An .idx file entry, embedding idx.Word from idx/idx.go
(word, offset into .dict, size of the .dict entry). -/
structure IdxWord where
  word : GoStr
  offset : Nat
  size : Nat
deriving DecidableEq, Repr, Inhabited

/-- Embedding of foldedWord from idx/idx.go: the folded key together with
the index entry it resolves to.  The Go code stores a pointer to the
shared idx.Word; the embedding stores the pointed-to value, so pointer
identity in Go becomes value equality here. -/
structure FoldedWord where
  folded : GoStr
  word : IdxWord
deriving DecidableEq, Repr, Inhabited

/-- One bubbling insertion step of Go insertion sort: x is appended after
the accumulated list p and swapped left while cmp x y < 0 against each
right-end element y, exactly as insertionSortCmpFunc in the Go runtime
moves data[i] left while cmp(data[j], data[j-1]) < 0. -/
def goInsert (cmp : α → α → Int) (p : List α) (x : α) : List α :=
  let r := p.reverse
  let r1 := r.takeWhile (fun z => cmp x z < 0)
  let r2 := r.drop r1.length
  r2.reverse ++ x :: r1.reverse

/-- Model of slices.SortFunc from the Go standard library.  Go uses
pdqsort, which runs exactly this insertion sort for slices of at most 12
elements; every concrete evaluation in this development stays within that
bound, where the model is exact. -/
def goSortFunc (cmp : α → α → Int) (l : List α) : List α :=
  l.foldl (goInsert cmp) []

/-- Loop of sort.Find from the Go standard library: binary search for the
smallest index i with f i <= 0.  The loop narrows j - i by at least one
per iteration, so j - i steps of fuel make the recursion structural while
computing exactly the Go loop. -/
def findLoopF (f : Nat → Int) : Nat → Nat → Nat → Nat
  | 0, i, _ => i
  | fuel + 1, i, j =>
    if i < j then
      let m := (i + j) / 2
      if f m > 0 then findLoopF f fuel (m + 1) j else findLoopF f fuel i m
    else i

/-- Embedding of sort.Find from the Go standard library: returns the
insertion point and whether the element at that point compares equal. -/
def sortFind (n : Nat) (f : Nat → Int) : Nat × Bool :=
  let i := findLoopF f n 0 n
  (i, decide (i < n) && (f i == 0))

/-- Embedding of the generic index.Index from internal/index/index.go:
the sorted array together with its comparison function. -/
structure GoIndex where
  index : List FoldedWord
  cmp : GoStr → GoStr → Int

/-- Embedding of index.NewIndex from internal/index/index.go: copies the
input and sorts it with slices.SortFunc using cmp on the folded keys. -/
def NewIndex (ws : List FoldedWord) (cmp : GoStr → GoStr → Int) : GoIndex :=
  { index := goSortFunc (fun a b => cmp a.folded b.folded) ws
    cmp := cmp }

/-- Loop expanding the equal range upward in index.Index.Search:
advance j while j < n and the comparison is zero.  Fueled by n - j, which
bounds the iteration count of the Go loop. -/
def expandLoopF (f : Nat → Int) (n : Nat) : Nat → Nat → Nat
  | 0, j => j
  | fuel + 1, j =>
    if j < n then
      if f j == 0 then expandLoopF f n fuel (j + 1) else j
    else j

/-- The comparison closure passed to sort.Find in Index.Search. -/
def searchCmpAt (idx : GoIndex) (query : GoStr) (i : Nat) : Int :=
  idx.cmp query ((idx.index.getD i default).folded)

/-- Embedding of index.Index.Search from internal/index/index.go:
sort.Find locates a match, then j expands up while the comparison stays
zero, and the slice index[i:j] is returned; nil when not found. -/
def GoIndex.search (idx : GoIndex) (query : GoStr) : List FoldedWord :=
  let n := idx.index.length
  let fi := sortFind n (searchCmpAt idx query)
  if !fi.2 then []
  else
    let j := expandLoopF (searchCmpAt idx query) n (n - fi.1) fi.1
    (idx.index.drop fi.1).take (j - fi.1)

/-! Concrete entries exhibiting the prefix-search defect: the folded keys
ax, a, ab in .idx file order, where one key is a proper prefix of the
others. -/

/-- Index entry with folded key ax. -/
def axW : IdxWord := ⟨[97, 120], 0, 1⟩

/-- Index entry with folded key a. -/
def aW : IdxWord := ⟨[97], 1, 1⟩

/-- Index entry with folded key ab. -/
def abW : IdxWord := ⟨[97, 98], 2, 1⟩

/-- The folded words for the three entries in .idx file order. -/
def c1words : List FoldedWord := [⟨[97, 120], axW⟩, ⟨[97], aW⟩, ⟨[97, 98], abW⟩]

/-- C1: the claim asserts that for every collection of indexed entries and
every non-empty prefix p the candidate range returned by the prefix lookup
equals the set of entries whose folded key starts with p, with the array
sorted by exact byte order at build time and the prefix relation applied
only during lookup.  The code instead passes prefixCmp to NewIndex, which
uses it both to sort and to search.  On the folded keys ax, a, ab the
built array is stored as ax, a, ab — not byte order, since ax compares
greater than a — and searching for the prefix ax returns the empty range
even though the key ax is present, so the returned range differs from the
(nonempty) set of keys starting with ax. -/
theorem c1_search_misses_present_key :
    (NewIndex c1words prefixCmp).search [97, 120] = []
    ∧ (NewIndex c1words prefixCmp).index.filter
        (fun w => goHasPref w.folded [97, 120]) = [⟨[97, 120], axW⟩]
    ∧ (NewIndex c1words prefixCmp).index.map (fun w => w.folded)
        = [[97, 120], [97], [97, 98]]
    ∧ goCompare [97, 120] [97] = 1 := by
  refine ⟨?_, ?_, ?_, ?_⟩ <;> decide

/-- Model of syntax.Special from the external github.com/gobwas/glob
dependency: the bytes that begin a glob token, namely star, question
mark, backslash, opening bracket and opening brace (42, 63, 92, 91,
123). -/
def specialB (c : Nat) : Bool :=
  c == 42 || c == 63 || c == 92 || c == 91 || c == 123

/-- Loop of Idx.foldGlob from idx/idx.go.  State: the accumulated slice s
of flushed runs, the current builder contents b, and the isSpecial flag.
Transitions translate the Go loop body byte for byte: entering a special
run flushes the folded non-special run, entering a non-special run
flushes the special run verbatim, and every byte is written to the
builder. -/
def foldGlobLoop (f : GoStr → GoStr) :
    GoStr → List GoStr → GoStr → Bool → List GoStr × GoStr × Bool
  | [], s, b, isSp => (s, b, isSp)
  | c :: rest, s, b, isSp =>
    if specialB c then
      if isSp then foldGlobLoop f rest s (b ++ [c]) true
      else foldGlobLoop f rest (if b.length > 0 then s ++ [f b] else s) [c] true
    else
      if isSp then foldGlobLoop f rest (if b.length > 0 then s ++ [b] else s) [c] false
      else foldGlobLoop f rest s (b ++ [c]) false

/-- Final flush of Idx.foldGlob: the remaining builder contents are folded
unless they form a special run, appended when non-empty, and the
accumulated runs are joined. -/
def foldGlobFinish (f : GoStr → GoStr) : List GoStr × GoStr × Bool → GoStr
  | (s, b, isSp) =>
    (if b.length > 0 then s ++ [if isSp then b else f b] else s).flatten

/-- Embedding of Idx.foldGlob from idx/idx.go: fold runs of non-special
bytes with the index's folding transformer and keep special runs
verbatim.  The fold transformer is modelled as a total function, which
covers every folder used by the repository. -/
def foldGlob (f : GoStr → GoStr) (q : GoStr) : GoStr :=
  foldGlobFinish f (foldGlobLoop f q [] [] false)

/-- Length of dropWhile never exceeds the input length; used for the
termination of metaChunks. -/
theorem lengthDropWhileLe (p : Nat → Bool) (l : List Nat) :
    (l.dropWhile p).length ≤ l.length := by
  induction l with
  | nil => simp [List.dropWhile]
  | cons x xs ih =>
    rw [List.dropWhile]
    cases p x
    · simp
    · simp
      omega

/-- The maximal runs of q under the special/non-special byte
classification, in order; written from the specification's description of
query folding (runs of non-meta characters and meta runs). -/
def metaChunks : GoStr → List GoStr
  | [] => []
  | c :: rest =>
    (c :: rest.takeWhile (fun d => specialB d == specialB c))
      :: metaChunks (rest.dropWhile (fun d => specialB d == specialB c))
termination_by l => l.length
decreasing_by
  simp only [List.length_cons]
  have := lengthDropWhileLe (fun d => specialB d == specialB c) rest
  omega

/-- The specification's description of query folding: fold each maximal
run of non-meta characters individually and concatenate, leaving meta
runs unchanged. -/
def specExpected (f : GoStr → GoStr) (q : GoStr) : GoStr :=
  ((metaChunks q).map (fun r => if specialB (r.headD 0) then r else f r)).flatten

/-- Modelled from the spec: full Unicode case folding, performed by the
external golang.org/x/text cases.Fold stage (not part of this
repository).  On ASCII input Unicode case folding maps A-Z to a-z and
leaves other bytes unchanged; the development evaluates it only on ASCII
input, where this model is exact. -/
def asciiCaseFold (s : GoStr) : GoStr :=
  s.map (fun c => if 65 ≤ c ∧ c ≤ 90 then c + 32 else c)

theorem metaChunks_nil : metaChunks [] = [] := by
  rw [metaChunks]

theorem takeWhile_append_of_all {p : Nat → Bool} :
    ∀ (b rest : GoStr), (∀ x ∈ b, p x = true) →
    (∀ d, rest.head? = some d → p d = false) →
    (b ++ rest).takeWhile p = b ∧ (b ++ rest).dropWhile p = rest := by
  intro b
  induction b with
  | nil =>
    intro rest _ h2
    simp only [List.nil_append]
    cases rest with
    | nil => simp [List.takeWhile, List.dropWhile]
    | cons d ds =>
      have hd := h2 d rfl
      constructor
      · simp [List.takeWhile, hd]
      · simp [List.dropWhile, hd]
  | cons x xs ih =>
    intro rest h h2
    have hx : p x = true := h x (by simp)
    have ih2 := ih rest (fun y hy => h y (by simp [hy])) h2
    constructor
    · simp [List.takeWhile, hx, ih2.1]
    · simp [List.dropWhile, hx, ih2.2]

theorem metaChunks_append_uniform (k : Bool) (b rest : GoStr)
    (hb : b ≠ []) (hu : ∀ c ∈ b, specialB c = k)
    (hr : ∀ d, rest.head? = some d → specialB d ≠ k) :
    metaChunks (b ++ rest) = b :: metaChunks rest := by
  cases b with
  | nil => exact absurd rfl hb
  | cons c0 b2 =>
    have hc0 : specialB c0 = k := hu c0 (by simp)
    have hall : ∀ x ∈ b2, (fun d => specialB d == specialB c0) x = true := by
      intro x hx
      simp [hu x (by simp [hx]), hc0]
    have hrest : ∀ d, rest.head? = some d →
        (fun d => specialB d == specialB c0) d = false := by
      intro d hd
      have h3 := hr d hd
      simp only [beq_eq_false_iff_ne, ne_eq]
      rw [hc0]
      exact h3
    have hsplit := takeWhile_append_of_all
      (p := fun d => specialB d == specialB c0) b2 rest hall hrest
    rw [List.cons_append, metaChunks]
    rw [hsplit.1, hsplit.2]

theorem specExpected_nil (f : GoStr → GoStr) : specExpected f [] = [] := by
  simp [specExpected, metaChunks_nil]

theorem specExpected_append_uniform (f : GoStr → GoStr) (k : Bool)
    (b rest : GoStr) (hb : b ≠ []) (hu : ∀ c ∈ b, specialB c = k)
    (hr : ∀ d, rest.head? = some d → specialB d ≠ k) :
    specExpected f (b ++ rest)
      = (if k then b else f b) ++ specExpected f rest := by
  have hchunks := metaChunks_append_uniform k b rest hb hu hr
  cases b with
  | nil => exact absurd rfl hb
  | cons c0 b2 =>
    have hc0 : specialB c0 = k := hu c0 (by simp)
    simp only [specExpected, hchunks, List.map_cons, List.flatten_cons,
      List.headD_cons, hc0]

theorem foldGlobLoop_cons_sp_sp (f : GoStr → GoStr) (c : Nat) (q : GoStr)
    (s : List GoStr) (b : GoStr) (hc : specialB c = true) :
    foldGlobLoop f (c :: q) s b true = foldGlobLoop f q s (b ++ [c]) true := by
  simp [foldGlobLoop, hc]

theorem foldGlobLoop_cons_sp_ns (f : GoStr → GoStr) (c : Nat) (q : GoStr)
    (s : List GoStr) (b : GoStr) (hc : specialB c = true) :
    foldGlobLoop f (c :: q) s b false
      = foldGlobLoop f q (if b.length > 0 then s ++ [f b] else s) [c] true := by
  simp [foldGlobLoop, hc]

theorem foldGlobLoop_cons_ns_sp (f : GoStr → GoStr) (c : Nat) (q : GoStr)
    (s : List GoStr) (b : GoStr) (hc : specialB c = false) :
    foldGlobLoop f (c :: q) s b true
      = foldGlobLoop f q (if b.length > 0 then s ++ [b] else s) [c] false := by
  simp [foldGlobLoop, hc]

theorem foldGlobLoop_cons_ns_ns (f : GoStr → GoStr) (c : Nat) (q : GoStr)
    (s : List GoStr) (b : GoStr) (hc : specialB c = false) :
    foldGlobLoop f (c :: q) s b false = foldGlobLoop f q s (b ++ [c]) false := by
  simp [foldGlobLoop, hc]

theorem foldGlobLoop_invariant (f : GoStr → GoStr) :
    ∀ (q : GoStr) (s : List GoStr) (b : GoStr) (isSp : Bool),
    (∀ c ∈ b, specialB c = isSp) → (isSp = true → b ≠ []) →
    foldGlobFinish f (foldGlobLoop f q s b isSp)
      = s.flatten ++ specExpected f (b ++ q) := by
  intro q
  induction q with
  | nil =>
    intro s b isSp hu hsp
    simp only [foldGlobLoop]
    cases b with
    | nil =>
      simp [foldGlobFinish, specExpected_nil]
    | cons c0 b2 =>
      have hbne : (c0 :: b2 : GoStr) ≠ [] := by simp
      have hspec := specExpected_append_uniform f isSp (c0 :: b2) [] hbne hu
        (by intro d hd; simp at hd)
      simp only [List.append_nil] at hspec ⊢
      rw [hspec, specExpected_nil, List.append_nil]
      simp [foldGlobFinish]
  | cons c q2 ih =>
    intro s b isSp hu hsp
    cases hc : specialB c with
    | true =>
      cases isSp with
      | true =>
        rw [foldGlobLoop_cons_sp_sp f c q2 s b hc]
        have hu2 : ∀ x ∈ b ++ [c], specialB x = true := by
          intro x hx
          rcases List.mem_append.1 hx with h | h
          · exact hu x h
          · simp at h; subst h; exact hc
        rw [ih s (b ++ [c]) true hu2 (by intro h2; simp)]
        have harr : (b ++ [c]) ++ q2 = b ++ c :: q2 := by simp
        rw [harr]
      | false =>
        rw [foldGlobLoop_cons_sp_ns f c q2 s b hc]
        have hc1 : ∀ x ∈ ([c] : GoStr), specialB x = true := by
          intro x hx
          simp at hx
          subst hx
          exact hc
        cases b with
        | nil =>
          simp only [List.length_nil, gt_iff_lt, lt_self_iff_false, if_false]
          rw [ih s [c] true hc1 (by intro h2; simp)]
          simp
        | cons c0 b2 =>
          have hlen : (c0 :: b2 : GoStr).length > 0 := by simp
          rw [if_pos hlen]
          rw [ih (s ++ [f (c0 :: b2)]) [c] true hc1 (by intro h2; simp)]
          have hspec := specExpected_append_uniform f false (c0 :: b2) (c :: q2)
            (by simp) hu
            (by intro d hd; simp at hd; subst hd; simp [hc])
          rw [hspec]
          simp
    | false =>
      cases isSp with
      | true =>
        rw [foldGlobLoop_cons_ns_sp f c q2 s b hc]
        have hbne : b ≠ [] := hsp rfl
        have hlen : b.length > 0 := List.length_pos.2 hbne
        rw [if_pos hlen]
        have hc1 : ∀ x ∈ ([c] : GoStr), specialB x = false := by
          intro x hx
          simp at hx
          subst hx
          exact hc
        rw [ih (s ++ [b]) [c] false hc1 (by intro h2; simp at h2)]
        have hspec := specExpected_append_uniform f true b (c :: q2) hbne hu
          (by intro d hd; simp at hd; subst hd; simp [hc])
        rw [hspec]
        simp
      | false =>
        rw [foldGlobLoop_cons_ns_ns f c q2 s b hc]
        have hu2 : ∀ x ∈ b ++ [c], specialB x = false := by
          intro x hx
          rcases List.mem_append.1 hx with h | h
          · exact hu x h
          · simp at h; subst h; exact hc
        rw [ih s (b ++ [c]) false hu2 (by intro h2; simp at h2)]
        have harr : (b ++ [c]) ++ q2 = b ++ c :: q2 := by simp
        rw [harr]

/-- C7: query folding preserves glob meta-characters verbatim.  For every
folding transformer and every query, Idx.foldGlob equals the
concatenation obtained by folding each maximal run of non-meta bytes
individually and leaving the meta runs unchanged; in particular, with
case folding the query Fu[G]A* (bytes 70 117 91 71 93 65 42) folds to
fu[g]a* (bytes 102 117 91 103 93 97 42) and not to fu[g]a. -/
theorem c7_foldGlob_preserves_meta :
    (∀ (f : GoStr → GoStr) (q : GoStr), foldGlob f q = specExpected f q)
    ∧ foldGlob asciiCaseFold [70, 117, 91, 71, 93, 65, 42]
        = [102, 117, 91, 103, 93, 97, 42] := by
  constructor
  · intro f q
    have := foldGlobLoop_invariant f q [] [] false
      (by intro c hc; simp at hc) (by intro h; simp at h)
    simpa [foldGlob] using this
  · decide

/-! UTF-8 rune iteration, needed because Idx.Search computes the static
prefix by ranging over the runes of the folded query. -/

/-- Embedding of utf8.DecodeRuneInString from the Go standard library:
returns the decoded rune value and its byte width; malformed or
incomplete input yields the replacement rune 0xFFFD with width 1. -/
def utf8DecodeOne (s : GoStr) : Nat × Nat :=
  match s with
  | [] => (0xFFFD, 1)
  | c :: rest =>
    if c < 0x80 then (c, 1)
    else if c < 0xC2 then (0xFFFD, 1)
    else if c < 0xE0 then
      match rest with
      | b1 :: _ =>
        if 0x80 ≤ b1 ∧ b1 < 0xC0 then ((c % 0x20) * 0x40 + b1 % 0x40, 2)
        else (0xFFFD, 1)
      | [] => (0xFFFD, 1)
    else if c < 0xF0 then
      match rest with
      | b1 :: b2 :: _ =>
        let lo := if c == 0xE0 then 0xA0 else 0x80
        let hi := if c == 0xED then 0xA0 else 0xC0
        if lo ≤ b1 ∧ b1 < hi ∧ 0x80 ≤ b2 ∧ b2 < 0xC0 then
          ((c % 0x10) * 0x1000 + (b1 % 0x40) * 0x40 + b2 % 0x40, 3)
        else (0xFFFD, 1)
      | _ => (0xFFFD, 1)
    else if c < 0xF5 then
      match rest with
      | b1 :: b2 :: b3 :: _ =>
        let lo := if c == 0xF0 then 0x90 else 0x80
        let hi := if c == 0xF4 then 0x90 else 0xC0
        if lo ≤ b1 ∧ b1 < hi ∧ 0x80 ≤ b2 ∧ b2 < 0xC0 ∧ 0x80 ≤ b3 ∧ b3 < 0xC0 then
          ((c % 8) * 0x40000 + (b1 % 0x40) * 0x1000 + (b2 % 0x40) * 0x40
            + b3 % 0x40, 4)
        else (0xFFFD, 1)
      | _ => (0xFFFD, 1)
    else (0xFFFD, 1)

/-- Embedding of utf8.EncodeRune (via strings.Builder.WriteRune) from the
Go standard library. -/
def utf8EncodeRune (r : Nat) : GoStr :=
  if r < 0x80 then [r]
  else if r < 0x800 then [0xC0 + r / 0x40, 0x80 + r % 0x40]
  else if (0xD800 ≤ r ∧ r < 0xE000) ∨ 0x10FFFF < r then [0xEF, 0xBF, 0xBD]
  else if r < 0x10000 then
    [0xE0 + r / 0x1000, 0x80 + (r / 0x40) % 0x40, 0x80 + r % 0x40]
  else
    [0xF0 + r / 0x40000, 0x80 + (r / 0x1000) % 0x40,
      0x80 + (r / 0x40) % 0x40, 0x80 + r % 0x40]

/-- Loop computing the static prefix in Idx.Search from idx/idx.go: range
over the runes of the folded query, stop at the first rune r with
syntax.Special(byte(r)) (byte truncation modelled as r mod 256), and
write the runes seen so far.  Each iteration consumes at least one byte,
so length-many fuel steps cover the Go loop exactly. -/
def staticPreLoopF : Nat → GoStr → GoStr
  | 0, _ => []
  | _, [] => []
  | fuel + 1, s =>
    let rd := utf8DecodeOne s
    if specialB (rd.1 % 256) then []
    else utf8EncodeRune rd.1 ++ staticPreLoopF fuel (s.drop rd.2)

/-- The static prefix of a folded query, per Idx.Search from idx/idx.go:
the runes before the first special byte. -/
def queryStaticPre (fq : GoStr) : GoStr :=
  staticPreLoopF fq.length fq

/-! Model of the external github.com/gobwas/glob compiler and matcher.
The library is not part of this repository; the definitions below follow
the grammar documented on Idx.Search and in the specification, at byte
level.  They are exact for the literal and star/class patterns this
development evaluates. -/

/-- Scan a character class body (after an optional leading !) up to the
closing bracket; fails on an unterminated or empty class.  Returns the
rest of the pattern after the class. -/
def classItems : GoStr → Bool → Option GoStr
  | [], _ => none
  | 93 :: r, seen => if seen then some r else none
  | 92 :: r, _ =>
    match r with
    | [] => none
    | _ :: r2 => classItems r2 true
  | _ :: r, _ => classItems r true

/-- Modelled from the spec: success of glob.Compile from the external
github.com/gobwas/glob dependency.  A pattern compiles when its character
classes are closed and non-empty, its alternation braces balance, and no
escape dangles at the end; compile failure is surfaced as ErrGlob by
Idx.Search.  Fuel: every step consumes at least one pattern byte. -/
def globOkLoopF : Nat → GoStr → Nat → Bool
  | 0, _, _ => false
  | fuel + 1, l, d =>
    match l with
    | [] => d == 0
    | 92 :: r =>
      match r with
      | [] => false
      | _ :: r2 => globOkLoopF fuel r2 d
    | 91 :: r =>
      match classItems (match r with | 33 :: r2 => r2 | _ => r) false with
      | none => false
      | some r2 => globOkLoopF fuel r2 d
    | 123 :: r => globOkLoopF fuel r (d + 1)
    | 125 :: r => decide (d > 0) && globOkLoopF fuel r (d - 1)
    | _ :: r => globOkLoopF fuel r d

/-- Whether a glob pattern compiles; see globOkLoopF. -/
def globCompileOk (p : GoStr) : Bool :=
  globOkLoopF (p.length + 1) p 0

/-- Match one byte against a character class body, returning whether it
matched together with the pattern remaining after the closing bracket.
Supports single bytes, lo-hi ranges and escapes.  Fuel: each step
consumes at least one pattern byte. -/
def classMatchLoopF : Nat → GoStr → Nat → Bool → Bool → Option (Bool × GoStr)
  | 0, _, _, _, _ => none
  | _ + 1, [], _, _, _ => none
  | _ + 1, 93 :: r, _, acc, seen => if seen then some (acc, r) else none
  | fuel + 1, 92 :: r, d, acc, _ =>
    match r with
    | [] => none
    | c :: r2 => classMatchLoopF fuel r2 d (acc || d == c) true
  | fuel + 1, lo :: rest, d, acc, _ =>
    match rest with
    | 45 :: hi :: r2 =>
      if hi == 93 then classMatchLoopF fuel rest d (acc || d == lo) true
      else classMatchLoopF fuel r2 d (acc || (lo ≤ d && d ≤ hi)) true
    | _ => classMatchLoopF fuel rest d (acc || d == lo) true

/-- Match a byte against a full class (with optional negation). -/
def classMatch (p : GoStr) (d : Nat) : Option (Bool × GoStr) :=
  match p with
  | 33 :: r =>
    match classMatchLoopF (r.length + 1) r d false false with
    | none => none
    | some (m, rest) => some (!m, rest)
  | _ =>
    match classMatchLoopF (p.length + 1) p d false false with
    | none => none
    | some (m, rest) => some (m, rest)

/-- Split an alternation body at top-level commas up to the matching
closing brace; returns the alternatives and the trailing pattern. -/
def braceSplitF : Nat → GoStr → Nat → GoStr → List GoStr → Option (List GoStr × GoStr)
  | 0, _, _, _, _ => none
  | _ + 1, [], _, _, _ => none
  | fuel + 1, c :: r, depth, cur, acc =>
    if c == 125 then
      if depth == 0 then some ((acc ++ [cur]), r)
      else braceSplitF fuel r (depth - 1) (cur ++ [c]) acc
    else if c == 123 then braceSplitF fuel r (depth + 1) (cur ++ [c]) acc
    else if c == 44 then
      if depth == 0 then braceSplitF fuel r depth [] (acc ++ [cur])
      else braceSplitF fuel r depth (cur ++ [c]) acc
    else braceSplitF fuel r depth (cur ++ [c]) acc

/-- Modelled from the spec: matching of a compiled glob from the external
github.com/gobwas/glob dependency, at byte level, with no separator
configured (as in Idx.Search, so star and double star coincide).  Fuel:
each recursion shrinks the combined pattern and subject length. -/
def globMatchF : Nat → GoStr → GoStr → Bool
  | 0, _, _ => false
  | fuel + 1, p, s =>
    match p with
    | [] => s == []
    | 42 :: p2 =>
      globMatchF fuel p2 s
        || (match s with
            | [] => false
            | _ :: s2 => globMatchF fuel (42 :: p2) s2)
    | 63 :: p2 =>
      match s with
      | [] => false
      | _ :: s2 => globMatchF fuel p2 s2
    | 92 :: p2 =>
      match p2, s with
      | c :: p3, d :: s2 => (d == c) && globMatchF fuel p3 s2
      | _, _ => false
    | 91 :: p2 =>
      match s with
      | [] => false
      | d :: s2 =>
        match classMatch p2 d with
        | none => false
        | some (ok, p3) => ok && globMatchF fuel p3 s2
    | 123 :: p2 =>
      match braceSplitF (p2.length + 1) p2 0 [] [] with
      | none => false
      | some (alts, after) => alts.any (fun alt => globMatchF fuel (alt ++ after) s)
    | c :: p2 =>
      match s with
      | [] => false
      | d :: s2 => (d == c) && globMatchF fuel p2 s2

/-- Glob matching entry point; the fuel covers the maximal recursion
depth, which shrinks the combined lengths. -/
def globMatch (p s : GoStr) : Bool :=
  globMatchF (p.length + s.length + 1) p s

/-- The two query errors of idx/idx.go: ErrPrefix (query must not start
with a wildcard) and ErrGlob (invalid glob query). -/
inductive SearchErr where
  | preErr
  | globErr
deriving DecidableEq, Repr

/-- Embedding of idx.Idx from idx/idx.go: the sorted index and the
folding transformer. -/
structure Idx where
  index : GoIndex
  foldTransformer : GoStr → GoStr

/-- Embedding of Idx.Search from idx/idx.go: fold the query with
foldGlob, compile it as a glob (failure is ErrGlob), compute the static
prefix (empty prefix is ErrPrefix), collect the candidates with the
static prefix from the sorted index, and keep those whose folded key
matches the glob, returning the original index words. -/
def IdxSearch (idx : Idx) (query : GoStr) : Except SearchErr (List IdxWord) :=
  let fq := foldGlob idx.foldTransformer query
  if globCompileOk fq = false then .error .globErr
  else
    let pre := queryStaticPre fq
    if pre = [] then .error .preErr
    else
      .ok ((idx.index.search pre).filterMap
        (fun w => if globMatch fq w.folded then some w.word else none))

/-! Construction of the in-memory index (idx.NewWithSyn from idx/idx.go)
over the entries produced by the .idx and .syn scanners. -/

/-- A .syn file entry, embedding syn.Word from syn/syn.go: the synonym
word and the zero-based index of the original word in the .idx file. -/
structure SynWord where
  word : GoStr
  originalWordIndex : Nat
deriving DecidableEq, Repr, Inhabited

/-- Embedding of transform.Nop from the external golang.org/x/text
dependency: the identity transformer. -/
def nopFold : GoStr → GoStr := fun s => s

/-- Embedding of idx.Options from idx/idx.go: the optional folding
transformer (the scanner options are handled by the scanner itself). -/
structure IdxOptions where
  folder : Option (GoStr → GoStr)

/-- Embedding of idx.DefaultOptions from idx/idx.go: the default Folder
is transform.Nop. -/
def DefaultOptions : IdxOptions := ⟨some nopFold⟩

/-- The folder selection at the top of NewWithSyn in idx/idx.go: nil
options fall back to DefaultOptions, the transformer starts as
DefaultOptions.Folder and a non-nil options.Folder overrides it. -/
def effectiveFolder (options : Option IdxOptions) : GoStr → GoStr :=
  let o := match options with
    | none => DefaultOptions
    | some o => o
  match o.folder with
  | some f => f
  | none => nopFold

/-- Outcome of a Go runtime panic during construction (an out-of-range
slice index).  The Go merge loop of NewWithSyn has no other failure once
the scanners have produced their entries and the folder is total, so no
returned-error constructor is needed here. -/
inductive BuildErr where
  | goPanic
deriving DecidableEq, Repr

/-- The synonym merge loop of NewWithSyn in idx/idx.go: for each synonym
record append (folded word, words[OriginalWordIndex].word) to the words
slice.  The Go expression words[word.OriginalWordIndex] carries no range
check; an index at or beyond the current (grown) slice length panics at
runtime, modelled as BuildErr.goPanic. -/
def synLoop (fold : GoStr → GoStr) :
    List FoldedWord → List SynWord → Except BuildErr (List FoldedWord)
  | ws, [] => .ok ws
  | ws, sw :: rest =>
    if h : sw.originalWordIndex < ws.length then
      synLoop fold (ws ++ [⟨fold sw.word, (ws.get ⟨sw.originalWordIndex, h⟩).word⟩]) rest
    else .error .goPanic

/-- The words accumulated by NewWithSyn in idx/idx.go: every .idx entry
is folded and appended in file order, then the synonym records are merged
by synLoop. -/
def buildWords (fold : GoStr → GoStr) (idxWords : List IdxWord)
    (synWords : Option (List SynWord)) : Except BuildErr (List FoldedWord) :=
  let ws := idxWords.map (fun w => FoldedWord.mk (fold w.word) w)
  match synWords with
  | none => .ok ws
  | some sws => synLoop fold ws sws

/-- Embedding of idx.NewWithSyn from idx/idx.go over the scanned entries:
select the folding transformer, build the folded words (merging the
synonyms when a synonym reader is supplied) and sort them into the
generic index with prefixCmp. -/
def NewWithSyn (idxWords : List IdxWord) (synWords : Option (List SynWord))
    (options : Option IdxOptions) : Except BuildErr Idx :=
  match buildWords (effectiveFolder options) idxWords synWords with
  | .error e => .error e
  | .ok ws => .ok ⟨NewIndex ws prefixCmp, effectiveFolder options⟩

/-! The 6-stage folding pipeline.  The chain itself is repository code
(idx.New in the superseded revision and syn.New build it with
transform.Chain); four of its stages live in the external
golang.org/x/text packages and are modelled on the ASCII domain, where
this development evaluates them. -/

/-- Modelled from the spec: Unicode Normalization Form D (the external
x/text norm.NFD stage, not in this repository).  Canonical decomposition
is the identity on ASCII, the only domain this development evaluates. -/
def nfdModel (s : GoStr) : GoStr := s

/-- Modelled from the spec: removal of nonspacing marks, category Mn (the
external x/text runes.Remove stage).  No ASCII byte is in Mn, so the
stage is the identity on the ASCII domain evaluated here. -/
def removeMnModel (s : GoStr) : GoStr := s

/-- The ASCII code points of Unicode category P (punctuation). -/
def asciiPunct (c : Nat) : Bool :=
  c == 33 || c == 34 || c == 35 || c == 37 || c == 38 || c == 39 ||
  c == 40 || c == 41 || c == 42 || c == 44 || c == 45 || c == 46 ||
  c == 47 || c == 58 || c == 59 || c == 63 || c == 64 || c == 91 ||
  c == 92 || c == 93 || c == 95 || c == 123 || c == 125

/-- Modelled from the spec: removal of punctuation, category P (the
external x/text runes.Remove stage), exact on ASCII. -/
def removePModel (s : GoStr) : GoStr := s.filter (fun c => !asciiPunct c)

/-- Modelled from the spec: Unicode Normalization Form C (the external
x/text norm.NFC stage), the identity on ASCII. -/
def nfcModel (s : GoStr) : GoStr := s

/-- Whether a byte is ASCII whitespace per unicode.IsSpace (space, tab,
newline, vertical tab, form feed, carriage return). -/
def isSpaceAscii (c : Nat) : Bool :=
  c == 32 || c == 9 || c == 10 || c == 11 || c == 12 || c == 13

/-- Loop of WhitespaceFolder.Transform from internal/folding/whitespace.go
(whitespaceFolder in the superseded idx revision), specialised to a whole
input at EOF as transform.String applies it: leading whitespace is
skipped while notStart is false, internal whitespace spans set wsSpan and
emit a single ASCII space when the span ends, trailing whitespace is
never emitted, and every other byte is emitted.  ASCII specialisation of
the rune loop. -/
def wsFoldLoop : GoStr → Bool → Bool → GoStr
  | [], _, _ => []
  | c :: rest, notStart, wsSpan =>
    if isSpaceAscii c then
      if !notStart then wsFoldLoop rest notStart wsSpan
      else wsFoldLoop rest notStart true
    else
      (if wsSpan then [32] else []) ++ c :: wsFoldLoop rest true false

/-- The whitespace folding stage applied to a whole string. -/
def wsFold (s : GoStr) : GoStr := wsFoldLoop s false false

/-- The 6-stage folding pipeline built by transform.Chain in idx.New of
the superseded revision and in syn.New: NFD, Unicode case folding,
whitespace folding, removal of Mn marks, removal of punctuation, NFC. -/
def sixStageFold (s : GoStr) : GoStr :=
  nfcModel (removePModel (removeMnModel (wsFold (asciiCaseFold (nfdModel s)))))

/-! Shared concrete values for the index-construction claims. -/

/-- Index entry for the headword hoge (bytes 104 111 103 101). -/
def hogeIdxW : IdxWord := ⟨[104, 111, 103, 101], 0, 4⟩

/-- Index entry for the headword bar (bytes 98 97 114). -/
def barW : IdxWord := ⟨[98, 97, 114], 0, 1⟩

/-- Folded words obtained by merging the synonym foo into the index with
the single headword hoge: the synonym shares the hoge entry. -/
def c9out : List FoldedWord :=
  [⟨[104, 111, 103, 101], hogeIdxW⟩, ⟨[102, 111, 111], hogeIdxW⟩]

/-- Index built from hoge plus the synonym foo. -/
def c9idx : Idx := ⟨NewIndex c9out prefixCmp, effectiveFolder none⟩

/-- Index with no entries. -/
def emptyIdx : Idx := ⟨NewIndex [] prefixCmp, effectiveFolder none⟩

/-- Index with the single headword bar. -/
def barIdx : Idx := ⟨NewIndex [⟨[98, 97, 114], barW⟩] prefixCmp, effectiveFolder none⟩

/-- C2 counterexample: with default options (no Folder supplied) the
folding transformer selected by NewWithSyn is transform.Nop, so the
headword A (byte 65) is indexed under the folded key A itself, while the
6-stage pipeline folds A to a (byte 97).  The claim that default-options
folding equals the 6-stage pipeline is therefore false at A. -/
theorem c2_default_fold_differs_from_pipeline :
    effectiveFolder none [65] = [65]
    ∧ sixStageFold [65] = [97]
    ∧ buildWords (effectiveFolder none) [⟨[65], 0, 0⟩] none
        = .ok [⟨[65], ⟨[65], 0, 0⟩⟩]
    ∧ ([65] : GoStr) ≠ [97] := by
  refine ⟨rfl, rfl, rfl, by decide⟩

/-- C2 as amended: the caller may override the folding transformer, but
when none is supplied NewWithSyn selects DefaultOptions.Folder, which is
transform.Nop, so every headword is indexed under its own bytes; a
supplied Folder is honoured.  The 6-stage pipeline is applied only where
it is hardcoded (the superseded idx revision and syn.New), not as the
default of the current Idx. -/
theorem c2_default_folder_is_nop :
    (∀ s : GoStr, effectiveFolder none s = s)
    ∧ (∀ (f : GoStr → GoStr) (s : GoStr),
        effectiveFolder (some ⟨some f⟩) s = f s)
    ∧ (∀ es : List IdxWord,
        buildWords (effectiveFolder none) es none
          = .ok (es.map (fun e => FoldedWord.mk e.word e))) := by
  refine ⟨fun s => rfl, fun f s => rfl, fun es => rfl⟩

/-- C4: the claim asserts that construction returns an error value
whenever a synonym's original word index is at or beyond the number of
.idx entries.  The merge loop has no such check: with one .idx entry
(hoge) and synonym records (foo, 0) and (bar, 1), the index 1 is out of
range of the .idx entries yet construction succeeds, because the Go code
indexes the grown words slice that already holds the merged synonym foo;
and when the index is beyond even the grown slice, as with (foo, 5), the
code panics (index out of range) instead of returning an error value. -/
theorem c4_syn_out_of_range_not_an_error :
    buildWords (effectiveFolder none) [hogeIdxW]
        (some [⟨[102, 111, 111], 0⟩, ⟨[98, 97, 114], 1⟩])
      = .ok [⟨[104, 111, 103, 101], hogeIdxW⟩, ⟨[102, 111, 111], hogeIdxW⟩,
          ⟨[98, 97, 114], hogeIdxW⟩]
    ∧ buildWords (effectiveFolder none) [hogeIdxW]
        (some [⟨[102, 111, 111], 5⟩]) = .error .goPanic :=
  ⟨rfl, rfl⟩

theorem synLoop_pres (fold : GoStr → GoStr) :
    ∀ (sws : List SynWord) (ws out : List FoldedWord),
    synLoop fold ws sws = .ok out →
    ∀ m, m < ws.length → out[m]? = ws[m]? := by
  intro sws
  induction sws with
  | nil =>
    intro ws out h m hm
    obtain rfl : ws = out := by simpa [synLoop] using h
    rfl
  | cons sw rest ih =>
    intro ws out h m hm
    rw [synLoop] at h
    split at h
    · have h2 := ih _ out h m (by simp; omega)
      rw [h2, List.getElem?_append_left hm]
    · simp at h

theorem synLoop_get (fold : GoStr → GoStr) :
    ∀ (sws : List SynWord) (ws out : List FoldedWord) (k : Nat)
      (sw : SynWord) (e : FoldedWord),
    synLoop fold ws sws = .ok out →
    sws[k]? = some sw →
    ws[sw.originalWordIndex]? = some e →
    out[ws.length + k]? = some ⟨fold sw.word, e.word⟩ := by
  intro sws
  induction sws with
  | nil =>
    intro ws out k sw e h hk he
    simp at hk
  | cons sw0 rest ih =>
    intro ws out k sw e h hk he
    rw [synLoop] at h
    split at h
    · rename_i hlt
      cases k with
      | zero =>
        obtain rfl : sw0 = sw := by simpa using hk
        have hget : ws.get ⟨sw0.originalWordIndex, hlt⟩ = e := by
          rw [List.getElem?_eq_some] at he
          obtain ⟨h3, hv⟩ := he
          simpa using hv
        have hpres := synLoop_pres fold rest _ out h ws.length (by simp)
        simp only [Nat.add_zero]
        rw [hpres, hget, List.getElem?_concat_length]
      | succ k2 =>
        have hk2 : rest[k2]? = some sw := by simpa using hk
        have hjlt : sw.originalWordIndex < ws.length := by
          rw [List.getElem?_eq_some] at he
          exact he.1
        have he2 : (ws ++ [(⟨fold sw0.word,
            (ws.get ⟨sw0.originalWordIndex, hlt⟩).word⟩ :
            FoldedWord)])[sw.originalWordIndex]? = some e := by
          rw [List.getElem?_append_left hjlt]
          exact he
        have h3 := ih _ out k2 sw e h hk2 he2
        have harith : (ws ++ [(⟨fold sw0.word,
            (ws.get ⟨sw0.originalWordIndex, hlt⟩).word⟩ :
            FoldedWord)]).length + k2 = ws.length + (k2 + 1) := by
          simp only [List.length_append, List.length_cons, List.length_nil]
          omega
        rw [harith] at h3
        exact h3
    · simp at h

/-- C9: synonym aliasing.  If building the index from the scanned .idx
entries and .syn records succeeds, then for every synonym record (w, j)
with j in range of the .idx entries, the folded-word array holds, at the
position where that record was merged, the folded synonym paired with
exactly the IdxEntry of the canonical headword at file-order position j —
the same value (word, offset and size; the Go code shares the pointer)
that the canonical headword's own folded key carries, so a search hit via
the synonym returns the identical entry as a direct hit on the canonical
headword. -/
theorem c9_synonym_shares_entry (fold : GoStr → GoStr)
    (idxWords : List IdxWord) (sws : List SynWord) (out : List FoldedWord)
    (k : Nat) (sw : SynWord) (e : IdxWord)
    (hb : buildWords fold idxWords (some sws) = .ok out)
    (hk : sws[k]? = some sw)
    (he : idxWords[sw.originalWordIndex]? = some e) :
    out[idxWords.length + k]? = some ⟨fold sw.word, e⟩
    ∧ out[sw.originalWordIndex]? = some ⟨fold e.word, e⟩ := by
  have hb2 : synLoop fold
      (idxWords.map (fun w => FoldedWord.mk (fold w.word) w)) sws = .ok out := hb
  have hj : sw.originalWordIndex < idxWords.length := by
    rw [List.getElem?_eq_some] at he
    exact he.1
  have he0 : (idxWords.map
      (fun w => FoldedWord.mk (fold w.word) w))[sw.originalWordIndex]?
        = some ⟨fold e.word, e⟩ := by
    rw [List.getElem?_map, he]
    rfl
  constructor
  · have h4 := synLoop_get fold sws _ out k sw ⟨fold e.word, e⟩ hb2 hk he0
    simpa using h4
  · have h4 := synLoop_pres fold sws _ out hb2 sw.originalWordIndex
      (by simpa using hj)
    rw [h4, he0]

/-- Witness for C9 at the specification's own scenario: headword hoge,
synonym record (foo, 0); the merged array pairs foo with the hoge entry,
construction produces exactly that index, and both the synonym search
and the direct search return the identical entry. -/
theorem c9_witness :
    c9out[1]? = some ⟨[102, 111, 111], hogeIdxW⟩
    ∧ c9out[0]? = some ⟨[104, 111, 103, 101], hogeIdxW⟩
    ∧ NewWithSyn [hogeIdxW] (some [⟨[102, 111, 111], 0⟩]) none = .ok c9idx
    ∧ IdxSearch c9idx [102, 111, 111] = .ok [hogeIdxW]
    ∧ IdxSearch c9idx [104, 111, 103, 101] = .ok [hogeIdxW] := by
  refine ⟨?_, ?_, rfl, rfl, rfl⟩
  · exact (c9_synonym_shares_entry (effectiveFolder none) [hogeIdxW]
      [⟨[102, 111, 111], 0⟩] c9out 0 ⟨[102, 111, 111], 0⟩ hogeIdxW
      rfl rfl rfl).1
  · exact (c9_synonym_shares_entry (effectiveFolder none) [hogeIdxW]
      [⟨[102, 111, 111], 0⟩] c9out 0 ⟨[102, 111, 111], 0⟩ hogeIdxW
      rfl rfl rfl).2

/-- C6 counterexample: the query [fuga (bytes 91 102 117 103 97) contains
a glob meta-character and its folded static prefix is empty, yet
Idx.Search fails with ErrGlob, not ErrPrefix, because glob compilation
runs before the prefix check and the unterminated class fails to
compile. -/
theorem c6_glob_error_precedes_prefix_error :
    (([91, 102, 117, 103, 97] : GoStr).any specialB) = true
    ∧ queryStaticPre (foldGlob (emptyIdx.foldTransformer)
        [91, 102, 117, 103, 97]) = []
    ∧ IdxSearch emptyIdx [91, 102, 117, 103, 97] = .error .globErr
    ∧ SearchErr.globErr ≠ SearchErr.preErr := by
  refine ⟨rfl, rfl, rfl, by decide⟩

/-- C6 as amended: for every query containing a glob meta-character whose
folded form compiles successfully as a glob and whose folded static
prefix is empty, Idx.Search fails with ErrPrefix; a query that fails glob
compilation fails with ErrGlob even when its static prefix is empty. -/
theorem c6_empty_static_prefix_errprefix (idx : Idx) (q : GoStr)
    (_hmeta : q.any specialB = true)
    (hok : globCompileOk (foldGlob idx.foldTransformer q) = true)
    (hpre : queryStaticPre (foldGlob idx.foldTransformer q) = []) :
    IdxSearch idx q = .error .preErr := by
  simp [IdxSearch, hok, hpre]

/-- Witness for C6 at the specification's scenario: the query *uga
(bytes 42 117 103 97) compiles, has an empty static prefix, and fails
with ErrPrefix. -/
theorem c6_witness :
    (([42, 117, 103, 97] : GoStr).any specialB) = true
    ∧ globCompileOk (foldGlob (emptyIdx.foldTransformer)
        [42, 117, 103, 97]) = true
    ∧ queryStaticPre (foldGlob (emptyIdx.foldTransformer)
        [42, 117, 103, 97]) = []
    ∧ IdxSearch emptyIdx [42, 117, 103, 97] = .error .preErr := by
  refine ⟨by decide, by decide, by decide,
    c6_empty_static_prefix_errprefix emptyIdx [42, 117, 103, 97]
      (by decide) (by decide) (by decide)⟩

/-- C10 counterexample: the empty query folds successfully, contains no
glob meta-character and matches no indexed key, yet Idx.Search reports
ErrPrefix instead of returning an empty result with a nil error, because
its folded static prefix is empty. -/
theorem c10_empty_query_is_error :
    IdxSearch barIdx [] = .error .preErr
    ∧ (([] : GoStr).any specialB) = false
    ∧ foldGlob barIdx.foldTransformer [] = []
    ∧ globMatch (foldGlob barIdx.foldTransformer []) [98, 97, 114] = false := by
  refine ⟨rfl, rfl, rfl, rfl⟩

/-- C10 as amended: for every query whose folded form compiles
successfully as a glob and has a non-empty static prefix, if no candidate
key in the prefix range matches the glob then Idx.Search returns the
empty result with a nil error — a no-match is never reported as an
error. -/
theorem c10_no_match_returns_ok_empty (idx : Idx) (q : GoStr)
    (hok : globCompileOk (foldGlob idx.foldTransformer q) = true)
    (hpre : queryStaticPre (foldGlob idx.foldTransformer q) ≠ [])
    (hnm : ∀ w ∈ idx.index.search
        (queryStaticPre (foldGlob idx.foldTransformer q)),
        globMatch (foldGlob idx.foldTransformer q) w.folded = false) :
    IdxSearch idx q = .ok [] := by
  simp only [IdxSearch, hok]
  rw [if_neg (by simp), if_neg hpre]
  congr 1
  rw [List.filterMap_eq_nil_iff]
  intro w hw
  simp [hnm w hw]

/-- Witness for C10: the query hoge on an index holding only bar compiles,
has the non-empty static prefix hoge, matches nothing, and returns the
empty result without error. -/
theorem c10_witness :
    globCompileOk (foldGlob barIdx.foldTransformer [104, 111, 103, 101]) = true
    ∧ queryStaticPre (foldGlob barIdx.foldTransformer
        [104, 111, 103, 101]) ≠ []
    ∧ IdxSearch barIdx [104, 111, 103, 101] = .ok [] := by
  refine ⟨by decide, by decide,
    c10_no_match_returns_ok_empty barIdx [104, 111, 103, 101]
      (by decide) (by decide) (by decide)⟩

/-! The .idx record scanner (idx/Scanner in the current revision, read
from the stitched source part holding scanner.go) and the article parser
of the dict package. -/

/-- Embedding of bytes.IndexByte from the Go standard library: the index
of the first occurrence of x, or none. -/
def indexOfByte (x : Nat) : GoStr → Option Nat
  | [] => none
  | c :: rest => if c == x then some 0 else (indexOfByte x rest).map (· + 1)

/-- Big-endian integer from the first n bytes of b; callers bound-check
first, as binary.BigEndian panics on short input. -/
def beBytes (b : GoStr) (n : Nat) : Nat :=
  (b.take n).foldl (fun acc c => acc * 256 + c) 0

/-- A Go runtime panic: an index or slice bound out of range.  Distinct
from any error value the Go code returns. -/
inductive RuntimePanic where
  | indexOutOfRange
deriving DecidableEq, Repr

/-- The construction-time error of idx.NewScanner: OffsetBits must be 32
or 64 (ErrInvalidIdxOffset). -/
inductive ScanErr where
  | invalidIdxOffset
deriving DecidableEq, Repr

/-- Denotation of Scanner.splitIndex driven by bufio.Scanner over a whole
in-memory .idx stream: while bytes remain, a NUL at position i with at
least i + 1 + offsetBits/8 + 4 bytes available yields that complete
record as a token; otherwise (end of stream reached with bytes left) the
remaining bytes are returned as a final token, exactly the atEOF branch
of splitIndex.  Fuel: every step consumes at least one byte. -/
def splitIdxTokensF (offB : Nat) : Nat → GoStr → List GoStr
  | 0, _ => []
  | _, [] => []
  | fuel + 1, data =>
    match indexOfByte 0 data with
    | some i =>
      let tokenSize := i + 1 + offB / 8 + 4
      if tokenSize ≤ data.length then
        data.take tokenSize :: splitIdxTokensF offB fuel (data.drop tokenSize)
      else [data]
    | none => [data]

/-- The token stream produced by scanning a whole .idx byte stream. -/
def scanIdxTokens (offB : Nat) (data : GoStr) : List GoStr :=
  splitIdxTokensF offB data.length data

/-- Embedding of idx.NewScanner's validation plus the full scan: offset
bits other than 32 and 64 are a construction error; otherwise the token
list is produced.  splitIndex never returns an error, so Scanner.Err is
always nil: scanning itself cannot fail. -/
def NewScannerTokens (offB : Nat) (data : GoStr) :
    Except ScanErr (List GoStr) :=
  if offB ≠ 32 ∧ offB ≠ 64 then .error .invalidIdxOffset
  else .ok (scanIdxTokens offB data)

/-- Embedding of Scanner.Word from the idx package: when the token has a
NUL at i, the word is the bytes before it, the offset is the 4- or
8-byte big-endian integer after it and the size the 4 bytes after that
(binary.BigEndian panics when the token is too short); without a NUL the
zero-value Word is returned. -/
def idxScanWord (offB : Nat) (b : GoStr) : Except RuntimePanic IdxWord :=
  match indexOfByte 0 b with
  | none => .ok ⟨[], 0, 0⟩
  | some i =>
    let w := b.take i
    let rest := b.drop (i + 1)
    if offB == 64 then
      if 8 ≤ rest.length then
        if 4 ≤ (b.drop (i + 1 + 8)).length then
          .ok ⟨w, beBytes rest 8, beBytes (b.drop (i + 1 + 8)) 4⟩
        else .error .indexOutOfRange
      else .error .indexOutOfRange
    else
      if 4 ≤ rest.length then
        if 4 ≤ (b.drop (i + 1 + 4)).length then
          .ok ⟨w, beBytes rest 4, beBytes (b.drop (i + 1 + 4)) 4⟩
        else .error .indexOutOfRange
      else .error .indexOutOfRange

/-- C5: the claim asserts that a stream ending early with bytes remaining
surfaces a truncated-record error.  The scanner instead accepts the
trailing bytes: with 32-bit offsets, the stream 0x61 0x62 (two bytes, no
NUL, no complete record) is emitted as a final token with a nil error
and parsed as an entry with an empty word and zero offset and size; the
stream 0x61 0x00 0x01 (NUL present, truncated trailer) is also emitted
as a token and Word() then panics inside binary.BigEndian instead of
returning an error; and after a complete record the trailing garbage
0x78 0x79 is likewise delivered as a bogus extra token. -/
theorem c5_truncated_record_not_an_error :
    NewScannerTokens 32 [97, 98] = .ok [[97, 98]]
    ∧ idxScanWord 32 [97, 98] = .ok ⟨[], 0, 0⟩
    ∧ NewScannerTokens 32 [97, 0, 1] = .ok [[97, 0, 1]]
    ∧ idxScanWord 32 [97, 0, 1] = .error .indexOutOfRange
    ∧ NewScannerTokens 32
        [97, 0, 0, 0, 0, 1, 0, 0, 0, 2, 120, 121]
      = .ok [[97, 0, 0, 0, 0, 1, 0, 0, 0, 2], [120, 121]]
    ∧ idxScanWord 32 [97, 0, 0, 0, 0, 1, 0, 0, 0, 2] = .ok ⟨[97], 1, 2⟩ := by
  refine ⟨rfl, rfl, rfl, rfl, rfl, rfl⟩

/-! The article parser: Dict.Word from dict/dict.go. -/

/-- A typed data block of one article, embedding dict.Data. -/
structure DataBlock where
  typ : Nat
  data : GoStr
deriving DecidableEq, Repr

/-- The sametypesequence branch of Dict.Word from dict/dict.go: for each
tag, a lowercase tag takes the bytes up to and including the NUL when
one is present (i is incremented past the NUL before slicing data = b[:i])
and the whole remaining buffer otherwise; any other tag reads a 4-byte
big-endian length and that many bytes, panicking when the buffer is too
short. -/
def parseSame : List Nat → GoStr → Except RuntimePanic (List DataBlock)
  | [], _ => .ok []
  | t :: ts, b =>
    if 97 ≤ t ∧ t ≤ 122 then
      let i := match indexOfByte 0 b with
        | some i0 => i0 + 1
        | none => b.length
      (parseSame ts (b.drop i)).map (fun rest => ⟨t, b.take i⟩ :: rest)
    else
      if b.length < 4 then .error .indexOutOfRange
      else
        let size := beBytes b 4
        if 4 + size ≤ b.length then
          (parseSame ts (b.drop (4 + size))).map
            (fun rest => ⟨t, (b.drop 4).take size⟩ :: rest)
        else .error .indexOutOfRange

/-- The inline-tag branch of Dict.Word from dict/dict.go: while bytes
remain, the first byte is the tag; a lowercase tag takes the bytes up to
and not including the NUL and skips past it (b = b[i+1:]), which panics
at the final block when no NUL remains, since i+1 then exceeds the
buffer; other tags read a 4-byte length and that many bytes.  Fuel: each
iteration consumes at least the tag byte. -/
def parseInlineF : Nat → GoStr → Except RuntimePanic (List DataBlock)
  | 0, _ => .ok []
  | _, [] => .ok []
  | fuel + 1, t :: rest =>
    if 97 ≤ t ∧ t ≤ 122 then
      match indexOfByte 0 rest with
      | some i0 =>
        (parseInlineF fuel (rest.drop (i0 + 1))).map
          (fun tail => ⟨t, rest.take i0⟩ :: tail)
      | none => .error .indexOutOfRange
    else
      if rest.length < 4 then .error .indexOutOfRange
      else
        let size := beBytes rest 4
        if 4 + size ≤ rest.length then
          (parseInlineF fuel (rest.drop (4 + size))).map
            (fun tail => ⟨t, (rest.drop 4).take size⟩ :: tail)
        else .error .indexOutOfRange

/-- The inline-tag parse of a whole entry buffer. -/
def parseInline (b : GoStr) : Except RuntimePanic (List DataBlock) :=
  parseInlineF b.length b

/-- Dict.Word's dispatch between the two parsing modes: a non-empty
sametypesequence fixes the tags, otherwise tags are inline. -/
def dictWordData (sts : List Nat) (b : GoStr) :
    Except RuntimePanic (List DataBlock) :=
  if sts.length > 0 then parseSame sts b else parseInline b

/-- The fuel of parseInlineF is irrelevant once it covers the buffer
length, so the wrapper computes the loop's denotation. -/
theorem parseInlineF_fuel :
    ∀ (fuel fuel2 : Nat) (b : GoStr), b.length ≤ fuel → b.length ≤ fuel2 →
    parseInlineF fuel b = parseInlineF fuel2 b := by
  intro fuel
  induction fuel with
  | zero =>
    intro fuel2 b h1 _
    have hb : b = [] := by
      cases b with
      | nil => rfl
      | cons x xs => simp at h1
    subst hb
    cases fuel2 with
    | zero => rfl
    | succ m => rfl
  | succ n ih =>
    intro fuel2 b h1 h2
    cases b with
    | nil =>
      cases fuel2 with
      | zero => rfl
      | succ m => rfl
    | cons t rest =>
      cases fuel2 with
      | zero => simp at h2
      | succ m =>
        simp only [List.length_cons] at h1 h2
        simp only [parseInlineF]
        by_cases hlc : 97 ≤ t ∧ t ≤ 122
        · rw [if_pos hlc, if_pos hlc]
          cases hz : indexOfByte 0 rest with
          | some i0 =>
            have hrec := ih m (rest.drop (i0 + 1))
              (by simp; omega) (by simp; omega)
            simp [hrec]
          | none => rfl
        · rw [if_neg hlc, if_neg hlc]
          by_cases hsh : rest.length < 4
          · rw [if_pos hsh, if_pos hsh]
          · rw [if_neg hsh, if_neg hsh]
            by_cases hfits : 4 + beBytes rest 4 ≤ rest.length
            · rw [if_pos hfits, if_pos hfits]
              have hd : (rest.drop (4 + beBytes rest 4)).length ≤ rest.length := by
                simp
              rw [ih m (rest.drop (4 + beBytes rest 4)) (by omega) (by omega)]
            · rw [if_neg hfits, if_neg hfits]

/-- Helper: the first NUL of pre ++ 0 :: suf sits at pre.length when pre
contains no NUL. -/
theorem indexOfByte_append_zero (pre suf : GoStr) (hpre : (0 : Nat) ∉ pre) :
    indexOfByte 0 (pre ++ 0 :: suf) = some pre.length := by
  induction pre with
  | nil => simp [indexOfByte]
  | cons c cs ih =>
    have hc : c ≠ 0 := by
      intro h
      exact hpre (by simp [h])
    have ih2 := ih (by intro h; exact hpre (by simp [h]))
    simp only [List.cons_append, indexOfByte, List.append_eq]
    rw [if_neg (by simpa using hc), ih2]
    simp

/-- Helper: no NUL in b means indexOfByte finds nothing. -/
theorem indexOfByte_eq_none (b : GoStr) (hb : (0 : Nat) ∉ b) :
    indexOfByte 0 b = none := by
  induction b with
  | nil => rfl
  | cons c cs ih =>
    have hc : c ≠ 0 := by
      intro h
      exact hb (by simp [h])
    simp only [indexOfByte]
    rw [if_neg (by simpa using hc), ih (by intro h; exact hb (by simp [h]))]
    rfl

/-- C3 counterexample: with sametypesequence m m and the entry payload
0x61 0x62 0x00 0x63 0x64, the first parsed block's bytes are 0x61 0x62
0x00 — including the terminating NUL — where the claim requires exactly
the bytes up to and not including the NUL (0x61 0x62). -/
theorem c3_sametype_block_includes_nul :
    dictWordData [109, 109] [97, 98, 0, 99, 100]
      = .ok [⟨109, [97, 98, 0]⟩, ⟨109, [99, 100]⟩]
    ∧ ([97, 98, 0] : GoStr) ≠ [97, 98] := by
  refine ⟨rfl, by decide⟩

/-- C3 as amended: for every lowercase tag, the inline-tag parser takes
exactly the bytes up to and not including the next NUL and advances past
it; the sametypesequence parser also advances past the NUL but its
block's bytes include that NUL; and the final sametypesequence block may
lack a NUL, in which case it consumes the remaining buffer. -/
theorem c3_string_block_framing (t : Nat) (ts : List Nat)
    (pre suf b : GoStr)
    (hlow : 97 ≤ t) (hhigh : t ≤ 122)
    (hpre : (0 : Nat) ∉ pre) (hb : (0 : Nat) ∉ b) :
    parseInline (t :: (pre ++ 0 :: suf))
        = (parseInline suf).map (fun tail => ⟨t, pre⟩ :: tail)
    ∧ parseSame (t :: ts) (pre ++ 0 :: suf)
        = (parseSame ts suf).map (fun tail => ⟨t, pre ++ [0]⟩ :: tail)
    ∧ parseSame [t] b = .ok [⟨t, b⟩] := by
  have hidx := indexOfByte_append_zero pre suf hpre
  have htake : (pre ++ 0 :: suf).take pre.length = pre := List.take_left pre (0 :: suf)
  have htake1 : (pre ++ 0 :: suf).take (pre.length + 1) = pre ++ [0] := by
    rw [List.take_append]
    simp
  have hdrop1 : (pre ++ 0 :: suf).drop (pre.length + 1) = suf := by
    rw [List.drop_append]
    simp
  refine ⟨?_, ?_, ?_⟩
  · show parseInlineF (t :: (pre ++ 0 :: suf)).length (t :: (pre ++ 0 :: suf))
        = (parseInline suf).map (fun tail => ⟨t, pre⟩ :: tail)
    simp only [List.length_cons, parseInlineF, if_pos (And.intro hlow hhigh), hidx]
    rw [hdrop1, htake]
    rw [parseInlineF_fuel ((pre ++ 0 :: suf).length) suf.length suf
      (by simp; omega) (by omega)]
    rfl
  · rw [parseSame]
    rw [if_pos (And.intro hlow hhigh), hidx]
    simp only
    rw [htake1, hdrop1]
  · rw [parseSame]
    rw [if_pos (And.intro hlow hhigh), indexOfByte_eq_none b hb]
    simp only [parseSame, List.take_length, List.drop_length]
    rfl

/-- Witness for C3 at tag m (byte 109): the inline parse of
m a NUL b excludes the NUL, the sametypesequence parse of a NUL b
includes it, and a final sametypesequence block without NUL takes the
whole buffer. -/
theorem c3_witness :
    parseInline [109, 104, 0, 105]
      = (parseInline [105]).map (fun tail => ⟨109, [104]⟩ :: tail)
    ∧ parseSame [109, 109] ([104] ++ 0 :: [105])
      = (parseSame [109] [105]).map (fun tail => ⟨109, [104] ++ [0]⟩ :: tail)
    ∧ parseSame [109] [104, 105] = .ok [⟨109, [104, 105]⟩] :=
  c3_string_block_framing 109 [109] [104] [105] [104, 105]
    (by decide) (by decide) (by decide) (by decide)

/-! The .ifo reader: ifo.New from the ifo package (stitched source part
holding ifo.go). -/

/-- Drop a single trailing carriage return, per dropCR in
bufio.ScanLines. -/
def dropCR (l : GoStr) : GoStr :=
  if l.getLast? == some 13 then l.dropLast else l

/-- Denotation of bufio.ScanLines over a whole stream: split at each
newline, dropping the newline and a single trailing carriage return; a
final fragment without a newline is also a line; no token follows the
final newline.  Fuel: each step consumes at least one byte. -/
def splitLinesF : Nat → GoStr → List GoStr
  | 0, _ => []
  | _, [] => []
  | fuel + 1, s =>
    let pre := s.takeWhile (fun c => c != 10)
    let rest := s.dropWhile (fun c => c != 10)
    match rest with
    | [] => [dropCR pre]
    | _ :: rest2 => dropCR pre :: splitLinesF fuel rest2

/-- The lines of a whole .ifo stream. -/
def splitLines (s : GoStr) : List GoStr :=
  splitLinesF s.length s

/-- Trim ASCII spaces from the left, per strings.TrimLeft with cutset
space. -/
def trimLeftSpaces (l : GoStr) : GoStr :=
  l.dropWhile (fun c => c == 32)

/-- Trim ASCII spaces from the right, per strings.TrimRight with cutset
space. -/
def trimRightSpaces (l : GoStr) : GoStr :=
  (l.reverse.dropWhile (fun c => c == 32)).reverse

/-- Trim ASCII spaces from both sides, per strings.Trim with cutset
space. -/
def trimSpaces (l : GoStr) : GoStr :=
  trimRightSpaces (trimLeftSpaces l)

/-- Embedding of keyRegex.MatchString from the ifo package: the pattern
is unanchored, so a line matches when it contains at least one character
of the class a-z A-Z 0-9 hyphen underscore. -/
def keyRegexMatch (l : GoStr) : Bool :=
  l.any (fun c =>
    (48 ≤ c && c ≤ 57) || (65 ≤ c && c ≤ 90) || (97 ≤ c && c ≤ 122)
      || c == 45 || c == 95)

/-- The byte string version. -/
def versionBytes : GoStr := [118, 101, 114, 115, 105, 111, 110]

/-- Embedding of ifo.Ifo: the verbatim magic line and the key/value
metadata map, modelled as an association list updated in place. -/
structure Ifo where
  magic : GoStr
  metadata : List (GoStr × GoStr)
deriving DecidableEq, Repr

/-- The outcomes of ifo.New: a Go runtime panic (the missing-equals
slice access), errInvalidKey, and errNoVersion. -/
inductive IfoErr where
  | goPanic
  | invalidKey
  | noVersion
deriving DecidableEq, Repr

/-- Go map update on the association-list model. -/
def mapSet (m : List (GoStr × GoStr)) (k v : GoStr) : List (GoStr × GoStr) :=
  if m.any (fun kv => kv.1 == k) then
    m.map (fun kv => if kv.1 == k then (k, v) else kv)
  else m ++ [(k, v)]

/-- The key/value loop of ifo.New: skip lines blank after trimming
spaces; split on the first equals sign — strings.SplitN yields a
single-element slice when no equals sign is present, so the subsequent
v[1] access panics; right-trim the key and left-trim the value; an
unmatched keyRegex is errInvalidKey; a first key other than version is
errNoVersion. -/
def ifoLoop : List GoStr → Nat → List (GoStr × GoStr) →
    Except IfoErr (List (GoStr × GoStr))
  | [], _, m => .ok m
  | line :: rest, i, m =>
    if trimSpaces line = [] then ifoLoop rest i m
    else
      match indexOfByte 61 line with
      | none => .error .goPanic
      | some p =>
        let key := trimRightSpaces (line.take p)
        let value := trimLeftSpaces (line.drop (p + 1))
        if keyRegexMatch key = false then .error .invalidKey
        else if i == 0 ∧ key ≠ versionBytes then .error .noVersion
        else ifoLoop rest (i + 1) (mapSet m key value)

/-- Embedding of ifo.New: the first line is the magic, the remaining
lines feed the key/value loop, and an empty metadata map afterwards is
errNoVersion (the scanner itself reports no error on an in-memory
stream). -/
def ifoNew (data : GoStr) : Except IfoErr Ifo :=
  let lines := splitLines data
  let magic := lines.headD []
  match ifoLoop lines.tail 0 [] with
  | .error e => .error e
  | .ok m => if m.length == 0 then .error .noVersion else .ok ⟨magic, m⟩

/-- C8: the claim asserts that a non-blank key line without an equals
sign makes the parser return an error.  The code instead panics: for the
stream m newline version (a key line with no equals sign),
strings.SplitN returns a one-element slice and the v[1] access is an
index-out-of-range runtime panic, not an error return.  A well-formed
stream (m newline version=1) parses fine, so the embedding is not
trivially failing. -/
theorem c8_missing_equals_panics :
    ifoNew [109, 10, 118, 101, 114, 115, 105, 111, 110] = .error .goPanic
    ∧ ifoNew ([109, 10] ++ versionBytes ++ [61, 49, 10])
        = .ok ⟨[109], [(versionBytes, [49])]⟩ := by
  refine ⟨rfl, rfl⟩

end GoStardict
